import Mathlib

/-!
Verification of the `tmpl_ldr` template-loader library (`src/tmpl_ldr.py`).

Texts are modelled as `List Char`.  The two regular expressions
`IMPORT_FORMAT = \{\{\$([^\{\}]+)\}\}` and `VARIABLE_FORMAT = \{\{([^\$][^\{\}]+)\}\}`
are compiled by hand: since `[^\{\}]+` is a greedy run of non-brace characters that
must be followed by `}}` (a brace), backtracking can never shorten the run, so a
match at a position exists iff the maximal nonempty non-brace run after the opening
is immediately followed by two closing braces.  `re.search` is leftmost search.

The engine (`load_tmpl` / `load_tmpl_str`) is modelled as one fuel-indexed
structurally-recursive function `run_tmpl`; `none` means the fuel ran out (the
Python code can genuinely diverge, e.g. on self-importing templates), `some
(Except.error e)` models a raised `IOError`/`KeyError`, and `some (Except.ok s)`
models a normal return.  The file system (`open`) is an association list passed
explicitly.
-/

namespace TmplLdr

/-- A character is one of the brace characters of the marker syntax. -/
def isBraceChar (c : Char) : Bool := c == '{' || c == '}'

/-- The character class of `INDENT_DELIMITER`'s complement: tab or space
(`INDENT_DELIMITER = [^\t ]{1}`, and `get_indent_for` walks while the character
does NOT match it). -/
def isIndentChar (c : Char) : Bool := c == '\t' || c == ' '

/-- The character class of `.rstrip('\t \r\n')` in `apply_indent_to`. -/
def isRstripChar (c : Char) : Bool := c == '\t' || c == ' ' || c == '\r' || c == '\n'

/-- Match of `IMPORT_FORMAT` anchored at the head of `s`: `{{$`, then a nonempty
maximal run of non-brace characters, then `}}`.  Returns the captured group and
the total match length. -/
def matchImportAt (s : List Char) : Option (List Char × Nat) :=
  match s with
  | a :: b :: c :: rest =>
      if a = '{' ∧ b = '{' ∧ c = '$' then
        let run := rest.takeWhile fun d => !(isBraceChar d)
        if run ≠ [] ∧ ['}', '}'].isPrefixOf (rest.drop run.length) then
          some (run, run.length + 5)
        else none
      else none
  | _ => none

/-- Match of `VARIABLE_FORMAT` anchored at the head of `s`: `{{`, one character
that is not `$` (the regex class `[^\$]` does not exclude braces), then a
nonempty maximal run of non-brace characters, then `}}`. -/
def matchVarAt (s : List Char) : Option (List Char × Nat) :=
  match s with
  | a :: b :: c :: rest =>
      if a = '{' ∧ b = '{' ∧ c ≠ '$' then
        let run := rest.takeWhile fun d => !(isBraceChar d)
        if run ≠ [] ∧ ['}', '}'].isPrefixOf (rest.drop run.length) then
          some (c :: run, run.length + 5)
        else none
      else none
  | _ => none

/-- `re.search(IMPORT_FORMAT, content)`: leftmost match.  Returns the start
index, the captured path and the match length. -/
def searchImport : List Char → Option (Nat × List Char × Nat)
  | [] => none
  | c :: rest =>
      match matchImportAt (c :: rest) with
      | some (p, len) => some (0, p, len)
      | none =>
          match searchImport rest with
          | some (i, p, len) => some (i + 1, p, len)
          | none => none

/-- `re.search(VARIABLE_FORMAT, content)`: leftmost match.  Returns the start
index, the captured identifier and the match length. -/
def searchVar : List Char → Option (Nat × List Char × Nat)
  | [] => none
  | c :: rest =>
      match matchVarAt (c :: rest) with
      | some (p, len) => some (0, p, len)
      | none =>
          match searchVar rest with
          | some (i, p, len) => some (i + 1, p, len)
          | none => none

/-- `get_indent_for(text, start_at)`: clamp `start_at` to the last index if it is
past the end, then walk backwards collecting tab/space characters until a
non-tab/space character (e.g. a newline) or the start of the string.  The
backwards loop accumulating `text[start_at]+acc` is exactly the reversed
`takeWhile` over the reversed prefix `text[0..start_at]`. -/
def get_indent_for (text : List Char) (start_at : Int) : List Char :=
  let sa : Int := if start_at ≥ (text.length : Int) then (text.length : Int) - 1 else start_at
  if sa < 0 then []
  else ((text.take (sa.toNat + 1)).reverse.takeWhile isIndentChar).reverse

/-- Python `text.split("\n")` (single-character separator). -/
def split_on_nl : List Char → List (List Char)
  | [] => [[]]
  | c :: rest =>
      if c = '\n' then [] :: split_on_nl rest
      else
        match split_on_nl rest with
        | [] => [[c]]
        | l :: ls => (c :: l) :: ls

/-- The accumulator loop of `apply_indent_to`: each line gets the indent
prepended when its index is positive, and a trailing newline appended. -/
def indent_acc (indent : List Char) : List (List Char) → Nat → List Char
  | [], _ => []
  | l :: ls, line_idx =>
      (if line_idx > 0 then indent else []) ++ l ++ '\n' :: indent_acc indent ls (line_idx + 1)

/-- Python `acc.rstrip('\t \r\n')`. -/
def rstrip_ws (s : List Char) : List Char :=
  (s.reverse.dropWhile isRstripChar).reverse

/-- `apply_indent_to(text, indent)`: split on newlines, prepend `indent` to every
line except the first, re-join with newlines, remove the trailing newline added
by the loop, and right-strip whitespace. -/
def apply_indent_to (text indent : List Char) : List Char :=
  let acc := indent_acc indent (split_on_nl text) 0
  rstrip_ws (acc.take (acc.length - 1))

/-- Fuel-indexed core of Python `str.replace(pat, rep)`: replace all
non-overlapping occurrences left to right.  The fuel only serves to make the
recursion structural; `s.length` is always enough because `pat` is nonempty at
every replacement step. -/
def replaceAllAux : Nat → List Char → List Char → List Char → List Char
  | 0, s, _, _ => s
  | _ + 1, [], _, _ => []
  | n + 1, c :: rest, pat, rep =>
      if pat ≠ [] ∧ pat.isPrefixOf (c :: rest) then
        rep ++ replaceAllAux n ((c :: rest).drop pat.length) pat rep
      else
        c :: replaceAllAux n rest pat rep

/-- Python `s.replace(pat, rep)`. -/
def replaceAll (s pat rep : List Char) : List Char :=
  replaceAllAux s.length s pat rep

/-- Python `s.find(pat) >= 0` for nonempty `pat`: `pat` occurs as a contiguous
substring of `s`. -/
def occursIn (pat : List Char) : List Char → Bool
  | [] => pat.isEmpty
  | c :: rest => pat.isPrefixOf (c :: rest) || occursIn pat rest

/-- The literal variable-marker string `'{{'+k+'}}'` built in the
`skip_undefined` branch of `load_tmpl_str`. -/
def marker (k : List Char) : List Char := '{' :: '{' :: (k ++ ['}', '}'])

/-- An import-marker string `{{$p}}`, used to build concrete test inputs. -/
def imp_marker (p : List Char) : List Char := '{' :: '{' :: '$' :: (p ++ ['}', '}'])

/-- The `skip_undefined=True` branch of `load_tmpl_str`: for each given binding
in order, if its literal marker occurs in the content, textually replace all its
occurrences by the raw value. -/
def subst_pass : List Char → List (List Char × List Char) → List Char
  | content, [] => content
  | content, (k, v) :: rest =>
      let pat := marker k
      subst_pass (if occursIn pat content then replaceAll content pat v else content) rest

/-- The two exceptions `load_tmpl_str` can raise: `IOError` for a missing
template file and `KeyError` for an unbound variable under the default policy. -/
inductive TmplError where
  | ioError (path : List Char)
  | keyError (name : List Char)
deriving DecidableEq, Repr

/-- The external "read text content at path" capability: an association list
from path to file content. -/
abbrev FS := List (List Char × List Char)

/-- The `**kwargs` binding set: an insertion-ordered association list. -/
abbrev Bindings := List (List Char × List Char)

/-- The variable-substitution `while` loop of `load_tmpl_str` under the default
(`skip_undefined=False`) policy: find the leftmost `VARIABLE_FORMAT` match, look
the identifier up (raising `KeyError` when absent), indentation-adjust the value
and splice it in, then re-scan from the start. -/
def var_loop : Nat → List Char → Bindings → Option (Except TmplError (List Char))
  | 0, _, _ => none
  | fuel + 1, content, kwargs =>
      match searchVar content with
      | none => some (Except.ok content)
      | some (start, name, mlen) =>
          match kwargs.lookup name with
          | none => some (Except.error (TmplError.keyError name))
          | some v =>
              let indent := get_indent_for content ((start : Int) - 1)
              let vc := apply_indent_to v indent
              var_loop fuel (content.take start ++ vc ++ content.drop (start + mlen)) kwargs

/-- Request type of the engine: resolve a file (`load_tmpl`) or a string
(`load_tmpl_str`). -/
inductive Req where
  | file (path : List Char)
  | str (content : List Char)

/-- The whole engine, fuel-indexed.  `Req.file p` is `load_tmpl`: read the file
(raising `IOError` when absent) then resolve its content.  `Req.str c` is
`load_tmpl_str`: while an import marker is found, recursively resolve
the imported file (a full `load_tmpl`, variable phase included), indentation-adjust
it, splice it in and re-scan; when no import marker remains, run the variable
phase (`subst_pass` under `skip_undefined=True`, the `var_loop` otherwise). -/
def run_tmpl : Nat → FS → Req → Bool → Bindings → Option (Except TmplError (List Char))
  | 0, _, _, _, _ => none
  | fuel + 1, fs, Req.file path, skip_undefined, kwargs =>
      match fs.lookup path with
      | none => some (Except.error (TmplError.ioError path))
      | some content => run_tmpl fuel fs (Req.str content) skip_undefined kwargs
  | fuel + 1, fs, Req.str content, skip_undefined, kwargs =>
      match searchImport content with
      | some (start, path, mlen) =>
          match run_tmpl fuel fs (Req.file path) skip_undefined kwargs with
          | none => none
          | some (Except.error e) => some (Except.error e)
          | some (Except.ok imp_content) =>
              let indent := get_indent_for content ((start : Int) - 1)
              let ic := apply_indent_to imp_content indent
              run_tmpl fuel fs
                (Req.str (content.take start ++ ic ++ content.drop (start + mlen)))
                skip_undefined kwargs
      | none =>
          if skip_undefined then some (Except.ok (subst_pass content kwargs))
          else var_loop fuel content kwargs

/-- `load_tmpl(tmpl_file, skip_undefined, **kwargs)`. -/
def load_tmpl (fuel : Nat) (fs : FS) (tmpl_file : List Char) (skip_undefined : Bool)
    (kwargs : Bindings) : Option (Except TmplError (List Char)) :=
  run_tmpl fuel fs (Req.file tmpl_file) skip_undefined kwargs

/-- `load_tmpl_str(content, skip_undefined, **kwargs)`. -/
def load_tmpl_str (fuel : Nat) (fs : FS) (content : List Char) (skip_undefined : Bool)
    (kwargs : Bindings) : Option (Except TmplError (List Char)) :=
  run_tmpl fuel fs (Req.str content) skip_undefined kwargs

/-- Follows the spec's words (§6 wire format): a variable marker `{{` +
identifier + `}}` where the identifier is one or more characters excluding `{`
and `}` and does not begin with `$`, anchored at the head of `s`. -/
def spec_var_at (s : List Char) : Bool :=
  match s with
  | a :: b :: c :: rest =>
      a == '{' && b == '{' && !(c == '$') && !(isBraceChar c) &&
        ['}', '}'].isPrefixOf (rest.dropWhile fun d => !(isBraceChar d))
  | _ => false

/-- Follows the spec's words (§6 wire format): an import marker `{{$` + path +
`}}` where the path is one or more characters excluding `{` and `}`, anchored at
the head of `s`. -/
def spec_imp_at (s : List Char) : Bool :=
  match s with
  | a :: b :: c :: rest =>
      a == '{' && b == '{' && c == '$' &&
        !(rest.takeWhile fun d => !(isBraceChar d)).isEmpty &&
        ['}', '}'].isPrefixOf (rest.dropWhile fun d => !(isBraceChar d))
  | _ => false

/-- `s` contains (at some position) a variable marker in the spec's grammar. -/
def contains_spec_var : List Char → Bool
  | [] => false
  | c :: rest => spec_var_at (c :: rest) || contains_spec_var rest

/-- `s` contains (at some position) an import marker in the spec's grammar. -/
def contains_spec_imp : List Char → Bool
  | [] => false
  | c :: rest => spec_imp_at (c :: rest) || contains_spec_imp rest

/-- The `indent_acc` loop restricted to positive line indices: every line gets
the indent.  `indent_acc indent ls (n+1) = indent_rest indent ls` for any `n`. -/
def indent_rest (indent : List Char) : List (List Char) → List Char
  | [] => []
  | l :: ls => indent ++ l ++ '\n' :: indent_rest indent ls

/-- The import `while` loop of `load_tmpl_str` in isolation: resolve and
splice imports until none is found, returning the import-free text and the
remaining fuel (with which `run_tmpl` then runs the variable phase). -/
def import_phase : Nat → FS → List Char → Bool → Bindings →
    Option (Except TmplError (List Char × Nat))
  | 0, _, _, _, _ => none
  | fuel + 1, fs, content, skip_undefined, kwargs =>
      match searchImport content with
      | none => some (Except.ok (content, fuel))
      | some (start, path, mlen) =>
          match run_tmpl fuel fs (Req.file path) skip_undefined kwargs with
          | none => none
          | some (Except.error e) => some (Except.error e)
          | some (Except.ok imp_content) =>
              let indent := get_indent_for content ((start : Int) - 1)
              let ic := apply_indent_to imp_content indent
              import_phase fuel fs (content.take start ++ ic ++ content.drop (start + mlen))
                skip_undefined kwargs

/-! ## Helper lemmas -/

theorem run_file_missing (f : Nat) (fs : FS) (p : List Char) (sk : Bool) (kw : Bindings)
    (h : fs.lookup p = none) :
    run_tmpl (f + 1) fs (Req.file p) sk kw = some (Except.error (TmplError.ioError p)) := by
  simp only [run_tmpl, h]

theorem run_str_noImp (f : Nat) (fs : FS) (c : List Char) (sk : Bool) (kw : Bindings)
    (h : searchImport c = none) :
    run_tmpl (f + 1) fs (Req.str c) sk kw =
      if sk then some (Except.ok (subst_pass c kw)) else var_loop f c kw := by
  simp only [run_tmpl, h]

theorem run_str_imp (f : Nat) (fs : FS) (c : List Char) (sk : Bool) (kw : Bindings)
    (st : Nat) (p : List Char) (ml : Nat) (h : searchImport c = some (st, p, ml)) :
    run_tmpl (f + 1) fs (Req.str c) sk kw =
      match run_tmpl f fs (Req.file p) sk kw with
      | none => none
      | some (Except.error e) => some (Except.error e)
      | some (Except.ok ic) =>
          run_tmpl f fs
            (Req.str (c.take st ++ apply_indent_to ic (get_indent_for c ((st : Int) - 1)) ++
              c.drop (st + ml))) sk kw := by
  simp only [run_tmpl, h]

theorem var_loop_none (f : Nat) (c : List Char) (kw : Bindings) (h : searchVar c = none) :
    var_loop (f + 1) c kw = some (Except.ok c) := by
  simp only [var_loop, h]

theorem var_loop_missing (f : Nat) (c : List Char) (kw : Bindings) (st : Nat) (nm : List Char)
    (ml : Nat) (hs : searchVar c = some (st, nm, ml)) (hk : kw.lookup nm = none) :
    var_loop (f + 1) c kw = some (Except.error (TmplError.keyError nm)) := by
  simp only [var_loop, hs, hk]

theorem var_loop_found (f : Nat) (c : List Char) (kw : Bindings) (st : Nat) (nm : List Char)
    (ml : Nat) (v : List Char) (hs : searchVar c = some (st, nm, ml))
    (hk : kw.lookup nm = some v) :
    var_loop (f + 1) c kw =
      var_loop f
        (c.take st ++ apply_indent_to v (get_indent_for c ((st : Int) - 1)) ++ c.drop (st + ml))
        kw := by
  simp only [var_loop, hs, hk]

theorem subst_pass_unchanged (c : List Char) (kw : Bindings)
    (h : ∀ p ∈ kw, occursIn (marker p.1) c = false) : subst_pass c kw = c := by
  induction kw with
  | nil => rfl
  | cons p rest ih =>
      obtain ⟨k, v⟩ := p
      have h1 := h (k, v) (List.mem_cons_self _ _)
      simp only [subst_pass, h1, Bool.false_eq_true, if_false]
      exact ih fun q hq => h q (List.mem_cons_of_mem _ hq)

theorem lookup_none_keys (a : List Char) (l : Bindings) (h : l.lookup a = none) :
    ∀ p ∈ l, p.1 ≠ a := by
  induction l with
  | nil => intro p hp; cases hp
  | cons q rest ih =>
      obtain ⟨k, v⟩ := q
      intro p hp
      by_cases hk : (a == k) = true
      · exfalso
        simp [List.lookup, hk] at h
      · rcases List.mem_cons.mp hp with rfl | hmem
        · exact fun he => hk (beq_iff_eq.mpr he.symm)
        · refine ih ?_ p hmem
          have hk2 : (a == k) = false := by simpa using hk
          simpa [List.lookup, hk2] using h

theorem infix_of_occursIn (pat s : List Char) (h : occursIn pat s = true) : pat <:+: s := by
  induction s with
  | nil =>
      have hp : pat = [] := by simpa [occursIn, List.isEmpty_iff] using h
      subst hp
      exact ⟨[], [], rfl⟩
  | cons c rest ih =>
      simp only [occursIn, Bool.or_eq_true] at h
      rcases h with h | h
      · exact (List.isPrefixOf_iff_prefix.mp h).isInfix
      · rcases ih h with ⟨s1, t1, he⟩
        exact ⟨c :: s1, t1, by simp only [List.cons_append, List.append_assoc] at he ⊢; rw [he]⟩

theorem occursIn_here (pat t : List Char) (hp : pat ≠ []) :
    occursIn pat (pat ++ t) = true := by
  cases hpt : pat ++ t with
  | nil =>
      rcases List.append_eq_nil.mp hpt with ⟨h1, _⟩
      exact absurd h1 hp
  | cons c rest =>
      simp only [occursIn, Bool.or_eq_true]
      exact Or.inl (hpt ▸ List.isPrefixOf_iff_prefix.mpr (List.prefix_append pat t))

theorem occursIn_append_here (s pat t : List Char) (hp : pat ≠ []) :
    occursIn pat (s ++ (pat ++ t)) = true := by
  induction s with
  | nil => simpa using occursIn_here pat t hp
  | cons a s' ih =>
      simp only [List.cons_append, occursIn, Bool.or_eq_true]
      exact Or.inr ih

theorem takeWhile_append_all {p : Char → Bool} (xs ys : List Char)
    (h : ∀ x ∈ xs, p x = true) :
    (xs ++ ys).takeWhile p = xs ++ ys.takeWhile p := by
  induction xs with
  | nil => simp
  | cons a xs' ih =>
      have ha := h a (List.mem_cons_self _ _)
      simp only [List.cons_append, List.takeWhile_cons, ha, if_true]
      rw [ih fun x hx => h x (List.mem_cons_of_mem _ hx)]

theorem dropWhile_append_all {p : Char → Bool} (xs ys : List Char)
    (h : ∀ x ∈ xs, p x = true) :
    (xs ++ ys).dropWhile p = ys.dropWhile p := by
  induction xs with
  | nil => simp
  | cons a xs' ih =>
      have ha := h a (List.mem_cons_self _ _)
      simp only [List.cons_append, List.dropWhile_cons, ha, if_true]
      exact ih fun x hx => h x (List.mem_cons_of_mem _ hx)

theorem pref_append_cases {r a b : List Char} (h : r <+: a ++ b) :
    r <+: a ∨ ∃ r2, r = a ++ r2 ∧ r2 <+: b := by
  induction a generalizing r with
  | nil => exact Or.inr ⟨r, by simpa using h⟩
  | cons x a' ih =>
      cases r with
      | nil => exact Or.inl (List.nil_prefix)
      | cons y r' =>
          rw [List.cons_append] at h
          rcases List.cons_prefix_cons.mp h with ⟨rfl, h'⟩
          rcases ih h' with h2 | ⟨r2, rfl, h3⟩
          · exact Or.inl (List.cons_prefix_cons.mpr ⟨rfl, h2⟩)
          · exact Or.inr ⟨r2, by simp, h3⟩

theorem infix_eq_of_length {l1 l2 : List Char} (h : l1 <:+: l2)
    (hl : l1.length = l2.length) : l1 = l2 := by
  rcases h with ⟨s, t, he⟩
  have hlen := congrArg List.length he
  simp only [List.length_append] at hlen
  have hs : s = [] := List.length_eq_zero.mp (by omega)
  have ht : t = [] := List.length_eq_zero.mp (by omega)
  subst hs; subst ht
  simpa using he

theorem count_open_marker (x : List Char) :
    List.count '{' (marker x) = List.count '{' x + 2 := by
  simp [marker, List.count_cons, List.count_append]

theorem count_close_marker (x : List Char) :
    List.count '}' (marker x) = List.count '}' x + 2 := by
  simp [marker, List.count_cons, List.count_append]

theorem append_stop_eq (k m r1 r2 : List Char) (hk : '}' ∉ k) (hm : '}' ∉ m)
    (h : k ++ '}' :: r1 = m ++ '}' :: r2) : k = m := by
  induction k generalizing m with
  | nil =>
      cases m with
      | nil => rfl
      | cons b m2 =>
          rw [List.nil_append, List.cons_append] at h
          injection h with h1 _
          exact absurd (List.mem_cons.mpr (Or.inl h1)) hm
  | cons a k2 ih =>
      cases m with
      | nil =>
          rw [List.nil_append, List.cons_append] at h
          injection h with h1 _
          exact absurd (List.mem_cons.mpr (Or.inl h1.symm)) hk
      | cons b m2 =>
          rw [List.cons_append, List.cons_append] at h
          injection h with h1 h2
          have := ih m2 (fun hx => hk (List.mem_cons_of_mem _ hx))
            (fun hx => hm (List.mem_cons_of_mem _ hx)) h2
          rw [h1, this]

/-- If the marker of `k` occurs inside the marker of a brace-free `m`, then
`k = m`: counting braces forces the occurrence to be aligned. -/
theorem marker_infix_unique (k m : List Char) (hm1 : '{' ∉ m) (hm2 : '}' ∉ m)
    (h : marker k <:+: marker m) : k = m := by
  rcases h with ⟨s, t, he⟩
  have hco := congrArg (List.count '{') he
  have hcc := congrArg (List.count '}') he
  rw [List.count_append, List.count_append, count_open_marker, count_open_marker] at hco
  rw [List.count_append, List.count_append, count_close_marker, count_close_marker] at hcc
  rw [List.count_eq_zero.mpr hm1] at hco
  rw [List.count_eq_zero.mpr hm2] at hcc
  have hso : List.count '{' s = 0 := by omega
  have hsko : List.count '{' k = 0 := by omega
  have hskc : List.count '}' k = 0 := by omega
  have hs : s = [] := by
    cases s with
    | nil => rfl
    | cons a s2 =>
        exfalso
        have hh := congrArg List.head? he
        simp only [marker, List.cons_append, List.head?, Option.some.injEq] at hh
        rw [hh] at hso
        simp [List.count_cons] at hso
  subst hs
  rw [List.nil_append] at he
  simp only [marker, List.cons_append, List.cons.injEq, true_and] at he
  have he2 : k ++ '}' :: ('}' :: t) = m ++ '}' :: ['}'] := by
    simpa [List.append_assoc] using he
  exact append_stop_eq k m ('}' :: t) ['}'] (List.count_eq_zero.mp hskc) hm2 he2

theorem run_str_eq_phases (f : Nat) (fs : FS) (sk : Bool) (kw : Bindings) :
    ∀ c, run_tmpl f fs (Req.str c) sk kw =
      match import_phase f fs c sk kw with
      | none => none
      | some (Except.error e) => some (Except.error e)
      | some (Except.ok (mid, rem)) =>
          if sk then some (Except.ok (subst_pass mid kw)) else var_loop rem mid kw := by
  induction f with
  | zero => intro c; simp [run_tmpl, import_phase]
  | succ f ih =>
      intro c
      cases hsi : searchImport c with
      | none =>
          rw [run_str_noImp f fs c sk kw hsi]
          simp only [import_phase, hsi]
      | some v =>
          obtain ⟨st, p, ml⟩ := v
          rw [run_str_imp f fs c sk kw st p ml hsi]
          simp only [import_phase, hsi]
          cases hres : run_tmpl f fs (Req.file p) sk kw with
          | none => rfl
          | some r =>
              cases r with
              | error e => rfl
              | ok ic => exact ih _

theorem import_phase_no_marker (f : Nat) (fs : FS) (sk : Bool) (kw : Bindings) :
    ∀ c mid rem, import_phase f fs c sk kw = some (Except.ok (mid, rem)) →
      searchImport mid = none := by
  induction f with
  | zero => intro c mid rem h; simp [import_phase] at h
  | succ f ih =>
      intro c mid rem h
      cases hsi : searchImport c with
      | none =>
          simp only [import_phase, hsi, Option.some.injEq, Except.ok.injEq,
            Prod.mk.injEq] at h
          rw [← h.1]
          exact hsi
      | some v =>
          obtain ⟨st, p, ml⟩ := v
          simp only [import_phase, hsi] at h
          cases hres : run_tmpl f fs (Req.file p) sk kw with
          | none => rw [hres] at h; cases h
          | some r =>
              rw [hres] at h
              cases r with
              | error e => simp at h
              | ok ic => exact ih _ _ _ h

/-! ## The claims -/

/-- Claim C1: resolving the root text `"<p>\n\t{{$child.tmpl}}\n</p>\n"`, where
loading the path `child.tmpl` yields `"Hello, {{name}}!"`, with the binding set
`{name: "World"}` and the Fail undefined-policy, returns exactly
`"<p>\n\tHello, World!\n</p>\n"`. -/
theorem C1_round_trip :
    load_tmpl_str 10
      [("child.tmpl".toList, "Hello, ".toList ++ marker "name".toList ++ ['!'])]
      ("<p>\n\t".toList ++ imp_marker "child.tmpl".toList ++ "\n</p>\n".toList)
      false [("name".toList, "World".toList)] =
      some (Except.ok "<p>\n\tHello, World!\n</p>\n".toList) := by
  rfl

/-- Claim C2 (counterexample): the claim "if every import marker's path
encountered during resolution loads successfully, the returned text contains
no import-marker substring" is false: here resolution succeeds (in particular,
every load encountered during it succeeded — none happened), yet the output
contains the import marker `{{$x.tmpl}}`, inserted verbatim by the PassThrough
variable phase from a binding value. -/
theorem C2_counterexample :
    load_tmpl_str 2 [] (marker ['a', 'b']) true
        [(['a', 'b'], imp_marker "x.tmpl".toList)] =
      some (Except.ok (imp_marker "x.tmpl".toList)) ∧
    searchImport (imp_marker "x.tmpl".toList) = some (0, "x.tmpl".toList, 11) :=
  ⟨by rfl, by rfl⟩

/-- Claim C2 (amended): the import phase alone guarantees the absence of import
markers: when the import loop of `load_tmpl_str` finishes with text `mid`,
no import marker remains in `mid`; the final output is obtained from `mid` by
the variable phase alone (which can re-introduce import-marker text from
binding values). -/
theorem C2_amended (f : Nat) (fs : FS) (c : List Char) (sk : Bool) (kw : Bindings)
    (mid : List Char) (rem : Nat)
    (h : import_phase f fs c sk kw = some (Except.ok (mid, rem))) :
    searchImport mid = none ∧
    load_tmpl_str f fs c sk kw =
      (if sk then some (Except.ok (subst_pass mid kw)) else var_loop rem mid kw) := by
  constructor
  · exact import_phase_no_marker f fs sk kw c mid rem h
  · rw [load_tmpl_str, run_str_eq_phases f fs sk kw c, h]

theorem C2_amended_witness :
    searchImport ['x'] = none ∧
    load_tmpl_str 1 [] ['x'] true [] =
      (if true then some (Except.ok (subst_pass ['x'] [])) else var_loop 0 ['x'] []) :=
  C2_amended 1 [] ['x'] true [] ['x'] 0 (by rfl)

/-- Claim C3: under the Fail policy, resolving `{{undefined_name}}` with a
binding set lacking `undefined_name` fails with a `KeyError` naming it and no
result is returned; under the PassThrough policy the marker is left verbatim
and no failure occurs. -/
theorem C3_undefined_policy :
    (∀ (f : Nat) (fs : FS) (kw : Bindings), kw.lookup "undefined_name".toList = none →
      load_tmpl_str (f + 2) fs (marker "undefined_name".toList) false kw =
        some (Except.error (TmplError.keyError "undefined_name".toList))) ∧
    (∀ (f : Nat) (fs : FS) (kw : Bindings), kw.lookup "undefined_name".toList = none →
      load_tmpl_str (f + 1) fs (marker "undefined_name".toList) true kw =
        some (Except.ok (marker "undefined_name".toList))) := by
  constructor
  · intro f fs kw hk
    have h1 := run_str_noImp (f + 1) fs (marker "undefined_name".toList) false kw (by decide)
    have h2 := var_loop_missing f (marker "undefined_name".toList) kw 0
      "undefined_name".toList 18 (by decide) hk
    exact h1.trans h2
  · intro f fs kw hk
    have h1 := run_str_noImp f fs (marker "undefined_name".toList) true kw (by decide)
    have h2 : subst_pass (marker "undefined_name".toList) kw =
        marker "undefined_name".toList := by
      refine subst_pass_unchanged _ kw ?_
      intro p hp
      by_cases hoc : occursIn (marker p.1) (marker "undefined_name".toList) = true
      · exfalso
        have heq := marker_infix_unique p.1 "undefined_name".toList (by decide) (by decide)
          (infix_of_occursIn _ _ hoc)
        exact lookup_none_keys _ kw hk p hp heq
      · simpa using hoc
    calc load_tmpl_str (f + 1) fs (marker "undefined_name".toList) true kw
        = some (Except.ok (subst_pass (marker "undefined_name".toList) kw)) := h1
      _ = some (Except.ok (marker "undefined_name".toList)) := by rw [h2]

theorem C3_undefined_policy_witness :
    load_tmpl_str 2 [] (marker "undefined_name".toList) false [(['a'], ['b'])] =
      some (Except.error (TmplError.keyError "undefined_name".toList)) ∧
    load_tmpl_str 1 [] (marker "undefined_name".toList) true [(['a'], ['b'])] =
      some (Except.ok (marker "undefined_name".toList)) :=
  ⟨C3_undefined_policy.1 0 [] [(['a'], ['b'])] (by rfl),
   C3_undefined_policy.2 0 [] [(['a'], ['b'])] (by rfl)⟩

/-- Claim C8: if loading an import marker's path fails, the whole resolution
aborts with an `IOError` carrying the offending path — nothing is returned to
the caller — and `load_tmpl` on a missing path likewise fails. -/
theorem C8_missing_import (f : Nat) (fs : FS) (c : List Char) (sk : Bool) (kw : Bindings)
    (st : Nat) (p : List Char) (ml : Nat)
    (hs : searchImport c = some (st, p, ml)) (hp : fs.lookup p = none) :
    load_tmpl_str (f + 2) fs c sk kw = some (Except.error (TmplError.ioError p)) ∧
    load_tmpl (f + 1) fs p sk kw = some (Except.error (TmplError.ioError p)) := by
  constructor
  · have h1 := run_str_imp (f + 1) fs c sk kw st p ml hs
    have h2 := run_file_missing f fs p sk kw hp
    rw [load_tmpl_str]
    refine h1.trans ?_
    rw [h2]
  · exact run_file_missing f fs p sk kw hp

theorem C8_missing_import_witness :
    load_tmpl_str 2 [] (imp_marker "missing.tmpl".toList) false [] =
      some (Except.error (TmplError.ioError "missing.tmpl".toList)) ∧
    load_tmpl 1 [] "missing.tmpl".toList false [] =
      some (Except.error (TmplError.ioError "missing.tmpl".toList)) :=
  C8_missing_import 0 [] (imp_marker "missing.tmpl".toList) false [] 0
    "missing.tmpl".toList 17 (by rfl) (by rfl)

/-- Claim C5 (counterexample): a binding value containing a variable marker is
NOT left unresolved: with `ab ↦ "{{cd}}"` and `cd ↦ "X"`, resolving `{{ab}}`
yields `"X"` under both policies — the marker inside the substituted value is
itself resolved afterwards (by the re-scan under Fail, and by the later key's
replacement pass under PassThrough). -/
theorem C5_counterexample :
    load_tmpl_str 4 [] (marker ['a', 'b']) false
        [(['a', 'b'], marker ['c', 'd']), (['c', 'd'], ['X'])] =
      some (Except.ok ['X']) ∧
    load_tmpl_str 4 [] (marker ['a', 'b']) true
        [(['a', 'b'], marker ['c', 'd']), (['c', 'd'], ['X'])] =
      some (Except.ok ['X']) ∧
    (['X'] : List Char) ≠ marker ['c', 'd'] :=
  ⟨by rfl, by rfl, by decide⟩

/-- Claim C5 (amended): each substitution splices the (indentation-adjusted)
value verbatim at the substitution site, but the engine then re-scans the whole
resulting text, so marker-shaped text inside substituted values is resolved by
later steps when its identifier is bound — under both policies (concretely:
`ab ↦ "{{cd}}"`, `cd ↦ "X"` turns `{{ab}}` into `"X"`). -/
theorem C5_amended :
    (∀ (f : Nat) (c : List Char) (kw : Bindings) (st : Nat) (nm : List Char) (ml : Nat)
        (v : List Char), searchVar c = some (st, nm, ml) → kw.lookup nm = some v →
      var_loop (f + 1) c kw =
        var_loop f (c.take st ++ apply_indent_to v (get_indent_for c ((st : Int) - 1)) ++
          c.drop (st + ml)) kw) ∧
    load_tmpl_str 4 [] (marker ['a', 'b']) false
        [(['a', 'b'], marker ['c', 'd']), (['c', 'd'], ['X'])] = some (Except.ok ['X']) ∧
    load_tmpl_str 4 [] (marker ['a', 'b']) true
        [(['a', 'b'], marker ['c', 'd']), (['c', 'd'], ['X'])] = some (Except.ok ['X']) := by
  refine ⟨?_, by rfl, by rfl⟩
  intro f c kw st nm ml v hs hk
  exact var_loop_found f c kw st nm ml v hs hk

theorem C5_amended_witness :
    var_loop 1 (marker ['a', 'b']) [(['a', 'b'], ['y'])] =
      var_loop 0 ((marker ['a', 'b']).take 0 ++
        apply_indent_to ['y'] (get_indent_for (marker ['a', 'b']) ((0 : Int) - 1)) ++
        (marker ['a', 'b']).drop (0 + 6)) [(['a', 'b'], ['y'])] :=
  C5_amended.1 0 (marker ['a', 'b']) [(['a', 'b'], ['y'])] 0 ['a', 'b'] 6 ['y']
    (by rfl) (by rfl)

theorem replaceAllAux_fuel (pat rep : List Char) :
    ∀ n m s, s.length ≤ n → s.length ≤ m →
      replaceAllAux n s pat rep = replaceAllAux m s pat rep := by
  intro n
  induction n with
  | zero =>
      intro m s hn _
      have hs : s = [] := List.length_eq_zero.mp (Nat.le_zero.mp hn)
      subst hs
      cases m with
      | zero => rfl
      | succ _ => rfl
  | succ n ih =>
      intro m s hn hm
      cases s with
      | nil =>
          cases m with
          | zero => rfl
          | succ _ => rfl
      | cons c rest =>
          cases m with
          | zero => simp at hm
          | succ m2 =>
              simp only [List.length_cons] at hn hm
              by_cases hcond : pat ≠ [] ∧ pat.isPrefixOf (c :: rest) = true
              · have hplen : 1 ≤ pat.length := by
                  cases hpat : pat with
                  | nil => exact absurd hpat hcond.1
                  | cons x xs => simp
                simp only [replaceAllAux, if_pos hcond]
                congr 1
                apply ih m2
                · simp only [List.length_drop, List.length_cons]; omega
                · simp only [List.length_drop, List.length_cons]; omega
              · simp only [replaceAllAux, if_neg hcond]
                congr 1
                exact ih m2 rest (by omega) (by omega)

theorem replaceAll_head_hit (pat t rep : List Char) (hp : pat ≠ []) :
    replaceAll (pat ++ t) pat rep = rep ++ replaceAll t pat rep := by
  obtain ⟨c, pr, rfl⟩ : ∃ c pr, pat = c :: pr := by
    cases pat with
    | nil => exact absurd rfl hp
    | cons c pr => exact ⟨c, pr, rfl⟩
  have hpre : (c :: pr).isPrefixOf ((c :: pr) ++ t) = true :=
    List.isPrefixOf_iff_prefix.mpr (List.prefix_append _ t)
  rw [replaceAll]
  rw [show (c :: pr) ++ t = c :: (pr ++ t) from rfl]
  simp only [List.length_cons, replaceAllAux]
  rw [if_pos ⟨hp, hpre⟩]
  congr 1
  have hdrop := List.drop_left (c :: pr) t
  rw [show (c :: (pr ++ t)).drop (pr.length + 1) = t from hdrop]
  rw [replaceAll]
  apply replaceAllAux_fuel
  · simp [List.length_append]
  · exact Nat.le_refl _

theorem replaceAll_skip_char (a : Char) (s pat rep : List Char)
    (hne : ¬ pat.isPrefixOf (a :: s) = true) :
    replaceAll (a :: s) pat rep = a :: replaceAll s pat rep := by
  rw [replaceAll, replaceAll]
  simp only [List.length_cons, replaceAllAux]
  rw [if_neg]
  rintro ⟨_, h2⟩
  exact hne h2

theorem replaceAll_no_open (s1 s2 pat rep : List Char) (pr : List Char)
    (hpr : pat = '{' :: pr) (h2 : '{' ∉ s1) :
    replaceAll (s1 ++ pat ++ s2) pat rep = s1 ++ rep ++ replaceAll s2 pat rep := by
  induction s1 with
  | nil =>
      simp only [List.nil_append]
      exact replaceAll_head_hit pat s2 rep (by rw [hpr]; simp)
  | cons a s1' ih =>
      have ha : a ≠ '{' := fun he => h2 (he ▸ List.mem_cons_self _ _)
      have hne : ¬ pat.isPrefixOf (a :: (s1' ++ pat ++ s2)) = true := by
        rw [hpr]
        intro hcon
        simp only [List.isPrefixOf, Bool.and_eq_true, beq_iff_eq] at hcon
        exact ha hcon.1.symm
      have hmain : replaceAll (a :: (s1' ++ pat ++ s2)) pat rep =
          a :: replaceAll (s1' ++ pat ++ s2) pat rep :=
        replaceAll_skip_char a _ pat rep hne
      calc replaceAll ((a :: s1') ++ pat ++ s2) pat rep
          = a :: replaceAll (s1' ++ pat ++ s2) pat rep := hmain
        _ = a :: (s1' ++ rep ++ replaceAll s2 pat rep) := by
              rw [ih (fun hx => h2 (List.mem_cons_of_mem _ hx))]
        _ = (a :: s1') ++ rep ++ replaceAll s2 pat rep := by
              simp [List.cons_append, List.append_assoc]

/-- Claim C6 (counterexample): under PassThrough the replacement is plain
textual replacement with the raw value: NO indentation adjustment is applied
per occurrence — a multi-line value inserted at a tab-indented marker keeps its
continuation line unprefixed (`"\tx\ny"`), unlike the indentation-adjusted
result (`"\tx\n\ty"`). -/
theorem C6_counterexample :
    load_tmpl_str 1 [] ('\t' :: marker ['a', 'b']) true [(['a', 'b'], "x\ny".toList)] =
      some (Except.ok ("\tx\ny".toList)) ∧
    apply_indent_to "x\ny".toList ['\t'] = "x\n\ty".toList ∧
    ("\tx\ny".toList : List Char) ≠ '\t' :: "x\n\ty".toList :=
  ⟨by rfl, by rfl, by decide⟩

/-- Claim C6 (amended): under the PassThrough policy each occurrence of a bound
key's literal marker is replaced by the key's RAW value via plain textual
replacement — in particular, for a single binding whose marker occurs after a
text with no opening brace, the output splices in `v` itself, with no
indentation adjustment and no trailing-whitespace stripping. -/
theorem C6_amended (f : Nat) (fs : FS) (k v s1 s2 : List Char)
    (h1 : searchImport (s1 ++ marker k ++ s2) = none) (h2 : '{' ∉ s1) :
    load_tmpl_str (f + 1) fs (s1 ++ marker k ++ s2) true [(k, v)] =
      some (Except.ok (s1 ++ v ++ replaceAll s2 (marker k) v)) := by
  have hstep := run_str_noImp f fs (s1 ++ marker k ++ s2) true [(k, v)] h1
  have hsub : subst_pass (s1 ++ marker k ++ s2) [(k, v)] =
      s1 ++ v ++ replaceAll s2 (marker k) v := by
    have hocc : occursIn (marker k) (s1 ++ marker k ++ s2) = true := by
      have hhere := occursIn_append_here s1 (marker k) s2 (by simp [marker])
      simpa [List.append_assoc] using hhere
    simp only [subst_pass, hocc, if_true]
    rw [replaceAll_no_open s1 s2 (marker k) v ('{' :: (k ++ ['}', '}'])) rfl h2]
  exact hstep.trans (by rw [hsub, if_pos rfl])

theorem C6_amended_witness :
    load_tmpl_str 1 [] (['>'] ++ marker ['a', 'b'] ++ ['z']) true [(['a', 'b'], ['v'])] =
      some (Except.ok (['>'] ++ ['v'] ++ replaceAll ['z'] (marker ['a', 'b']) ['v'])) :=
  C6_amended 0 [] ['a', 'b'] ['v'] ['>'] ['z'] (by rfl) (by decide)

/-- Claim C7 (counterexample): the variable pattern does NOT recognize every
nonempty brace-free identifier: the single-character marker `{{x}}` is not
matched, so under the Fail policy it is neither substituted when `x` is bound
nor a failure when it is not — it is returned verbatim. -/
theorem C7_counterexample :
    load_tmpl_str 3 [] (marker ['x']) false [(['x'], ['V'])] =
      some (Except.ok (marker ['x'])) ∧
    load_tmpl_str 3 [] (marker ['x']) false [] = some (Except.ok (marker ['x'])) ∧
    marker ['x'] ≠ ['V'] :=
  ⟨by rfl, by rfl, by decide⟩

/-- Claim C7 (amended): the variable pattern requires an identifier of length at
least two: `{{` + c + cs + `}}` is matched whenever c ≠ '$' and cs is a
nonempty brace-free run, while `{{c}}` matches for no character c;
consequently, under the Fail policy a single-character marker such as `{{x}}`
is left verbatim without failure for any binding set, whereas the PassThrough
literal replacement does substitute it when `x` is bound. -/
theorem C7_amended :
    (∀ (c : Char) (cs : List Char), c ≠ '$' → cs ≠ [] →
      (∀ a ∈ cs, isBraceChar a = false) →
      searchVar ('{' :: '{' :: c :: (cs ++ ['}', '}'])) =
        some (0, c :: cs, cs.length + 5)) ∧
    (∀ c : Char, searchVar ['{', '{', c, '}', '}'] = none) ∧
    (∀ (f : Nat) (fs : FS) (kw : Bindings),
      load_tmpl_str (f + 2) fs (marker ['x']) false kw =
        some (Except.ok (marker ['x']))) ∧
    load_tmpl_str 1 [] (marker ['x']) true [(['x'], ['V'])] = some (Except.ok ['V']) := by
  refine ⟨?_, ?_, ?_, by rfl⟩
  · intro c cs hc hcs hbr
    have hrun : (cs ++ ['}', '}']).takeWhile (fun d => !(isBraceChar d)) = cs := by
      rw [takeWhile_append_all cs ['}', '}'] (fun a ha => by simp [hbr a ha])]
      simp [isBraceChar]
    have hdrop : (cs ++ ['}', '}']).drop cs.length = ['}', '}'] := List.drop_left cs _
    have hpre : (['}', '}'] : List Char).isPrefixOf ['}', '}'] = true := by decide
    have hmatch : matchVarAt ('{' :: '{' :: c :: (cs ++ ['}', '}'])) =
        some (c :: cs, cs.length + 5) := by
      simp only [matchVarAt]
      rw [if_pos (by exact ⟨by trivial, by trivial, hc⟩), hrun, hdrop]
      rw [if_pos (by exact ⟨hcs, hpre⟩)]
    simp only [searchVar, hmatch]
  · intro c
    by_cases h1 : c = '$'
    · subst h1; decide
    · by_cases h2 : c = '{'
      · subst h2; decide
      · have hb1 : ('}' : Char) ≠ '{' := by decide
        have hrun0 : (['}', '}'] : List Char).takeWhile (fun d => !(isBraceChar d)) = [] := by
          decide
        simp only [searchVar, matchVarAt, hrun0]
        simp [h1, h2, hb1]
  · intro f fs kw
    exact (run_str_noImp (f + 1) fs (marker ['x']) false kw (by decide)).trans
      (var_loop_none f (marker ['x']) kw (by decide))

theorem C7_amended_witness :
    searchVar ('{' :: '{' :: 'a' :: (['b'] ++ ['}', '}'])) =
      some (0, 'a' :: ['b'], (['b'] : List Char).length + 5) ∧
    searchVar ['{', '{', 'q', '}', '}'] = none ∧
    load_tmpl_str 2 [] (marker ['x']) false [] = some (Except.ok (marker ['x'])) :=
  ⟨C7_amended.1 'a' ['b'] (by decide) (by decide) (by decide),
   C7_amended.2.1 'q',
   C7_amended.2.2.1 0 [] []⟩

/-- Claim C9 (counterexample): the text `{{}ab}}` contains no import marker and
no variable marker in the spec's wire-format grammar (identifiers and paths
exclude braces), yet under the Fail policy with an empty binding set the engine
raises a KeyError for the identifier `}ab` (the code's `[^\$]` class admits a
closing brace as first identifier character) instead of returning the text
unchanged. -/
theorem C9_counterexample :
    contains_spec_imp (marker ['}', 'a', 'b']) = false ∧
    contains_spec_var (marker ['}', 'a', 'b']) = false ∧
    load_tmpl_str 2 [] (marker ['}', 'a', 'b']) false [] =
      some (Except.error (TmplError.keyError ['}', 'a', 'b'])) :=
  ⟨by rfl, by rfl, by rfl⟩

/-- Claim C9 (amended): for every text on which the code's import pattern and
variable pattern find no match, resolution under the Fail policy returns the
text unchanged for any binding set; under PassThrough the text is returned
unchanged provided additionally that no bound key's literal marker string
occurs in the text (the PassThrough pass searches for keys' literal markers
independently of the variable pattern). -/
theorem C9_amended (f : Nat) (fs : FS) (c : List Char) (kw : Bindings)
    (hi : searchImport c = none) (hv : searchVar c = none) :
    load_tmpl_str (f + 2) fs c false kw = some (Except.ok c) ∧
    ((∀ p ∈ kw, occursIn (marker p.1) c = false) →
      load_tmpl_str (f + 2) fs c true kw = some (Except.ok c)) := by
  constructor
  · exact (run_str_noImp (f + 1) fs c false kw hi).trans (var_loop_none f c kw hv)
  · intro hocc
    exact (run_str_noImp (f + 1) fs c true kw hi).trans
      (by rw [subst_pass_unchanged c kw hocc, if_pos rfl])

theorem C9_amended_witness :
    load_tmpl_str 2 [] ['q'] false [] = some (Except.ok ['q']) ∧
    load_tmpl_str 2 [] ['q'] true [] = some (Except.ok ['q']) :=
  ⟨(C9_amended 0 [] ['q'] [] (by rfl) (by rfl)).1,
   (C9_amended 0 [] ['q'] [] (by rfl) (by rfl)).2 (by simp)⟩

/-- Claim C10: the degenerate bracketed strings `{{}}` (= `marker []`) and
`{{$}}` (= `imp_marker []`) match neither the import pattern nor the variable
pattern, are passed through to the output unchanged under both policies (under
PassThrough for binding sets whose keys are nonempty and distinct from `$`,
e.g. ordinary identifiers), and never cause a failure or a file load. -/
theorem C10_degenerate :
    searchImport (marker []) = none ∧ searchVar (marker []) = none ∧
    searchImport (imp_marker []) = none ∧ searchVar (imp_marker []) = none ∧
    (∀ (f : Nat) (fs : FS) (kw : Bindings),
      load_tmpl_str (f + 2) fs (marker []) false kw = some (Except.ok (marker [])) ∧
      load_tmpl_str (f + 2) fs (imp_marker []) false kw =
        some (Except.ok (imp_marker []))) ∧
    (∀ (f : Nat) (fs : FS) (kw : Bindings), (∀ p ∈ kw, p.1 ≠ [] ∧ p.1 ≠ ['$']) →
      load_tmpl_str (f + 1) fs (marker []) true kw = some (Except.ok (marker [])) ∧
      load_tmpl_str (f + 1) fs (imp_marker []) true kw =
        some (Except.ok (imp_marker []))) := by
  refine ⟨by decide, by decide, by decide, by decide, ?_, ?_⟩
  · intro f fs kw
    have a1 := run_str_noImp (f + 1) fs (marker []) false kw (by decide)
    have a2 := var_loop_none f (marker []) kw (by decide)
    have b1 := run_str_noImp (f + 1) fs (imp_marker []) false kw (by decide)
    have b2 := var_loop_none f (imp_marker []) kw (by decide)
    exact ⟨a1.trans a2, b1.trans b2⟩
  · intro f fs kw hkeys
    constructor
    · have hsub : subst_pass (marker []) kw = marker [] := by
        refine subst_pass_unchanged _ kw ?_
        intro p hp
        by_cases hoc : occursIn (marker p.1) (marker []) = true
        · exfalso
          have hlen := List.IsInfix.length_le (infix_of_occursIn _ _ hoc)
          simp only [marker, List.length_cons, List.length_append, List.nil_append] at hlen
          exact (hkeys p hp).1 (List.length_eq_zero.mp (by omega))
        · simpa using hoc
      exact (run_str_noImp f fs (marker []) true kw (by decide)).trans
        (by rw [hsub, if_pos rfl])
    · have hsub : subst_pass (imp_marker []) kw = imp_marker [] := by
        refine subst_pass_unchanged _ kw ?_
        intro p hp
        by_cases hoc : occursIn (marker p.1) (imp_marker []) = true
        · exfalso
          have hinf := infix_of_occursIn _ _ hoc
          have hlen := List.IsInfix.length_le hinf
          simp only [marker, imp_marker, List.length_cons, List.length_append,
            List.nil_append] at hlen
          obtain ⟨k, v⟩ := p
          cases k with
          | nil => exact (hkeys ([], v) hp).1 rfl
          | cons c0 k2 =>
              cases k2 with
              | nil =>
                  have heq := infix_eq_of_length hinf (by simp [marker, imp_marker])
                  have hc0 : c0 = '$' := by
                    simpa [marker, imp_marker] using heq
                  exact (hkeys (c0 :: [], v) hp).2 (by rw [hc0])
              | cons c1 k3 =>
                  simp only [List.length_cons] at hlen
                  omega
        · simpa using hoc
      exact (run_str_noImp f fs (imp_marker []) true kw (by decide)).trans
        (by rw [hsub, if_pos rfl])

theorem C10_degenerate_witness :
    load_tmpl_str 1 [] (marker []) true [(['a'], ['b'])] = some (Except.ok (marker [])) ∧
    load_tmpl_str 1 [] (imp_marker []) true [(['a'], ['b'])] =
      some (Except.ok (imp_marker [])) :=
  C10_degenerate.2.2.2.2.2 0 [] [(['a'], ['b'])] (by decide)

/-! ## Lemmas about `split_on_nl`, `rstrip_ws` and `indent_acc` (for claim C4) -/

theorem split_on_nl_ne_nil (t : List Char) : split_on_nl t ≠ [] := by
  induction t with
  | nil => simp [split_on_nl]
  | cons c rest ih =>
      by_cases hc : c = '\n'
      · simp [split_on_nl, hc]
      · simp only [split_on_nl, if_neg hc]
        cases h : split_on_nl rest with
        | nil => exact absurd h ih
        | cons l ls => simp

theorem mem_split_on_nl_no_nl (t : List Char) : ∀ l ∈ split_on_nl t, '\n' ∉ l := by
  induction t with
  | nil =>
      intro l hl
      simp only [split_on_nl, List.mem_singleton] at hl
      simp [hl]
  | cons c rest ih =>
      intro l hl
      by_cases hc : c = '\n'
      · rw [split_on_nl, if_pos hc] at hl
        rcases List.mem_cons.mp hl with rfl | hmem
        · simp
        · exact ih l hmem
      · rw [split_on_nl, if_neg hc] at hl
        cases h : split_on_nl rest with
        | nil => exact absurd h (split_on_nl_ne_nil rest)
        | cons hd tl =>
            rw [h] at hl
            rcases List.mem_cons.mp hl with rfl | hmem
            · intro hin
              rcases List.mem_cons.mp hin with he | hin2
              · exact hc he.symm
              · exact ih hd (h ▸ List.mem_cons_self _ _) hin2
            · exact ih l (h ▸ List.mem_cons_of_mem _ hmem)

theorem split_on_nl_no_nl (t : List Char) (h : '\n' ∉ t) : split_on_nl t = [t] := by
  induction t with
  | nil => rfl
  | cons c rest ih =>
      have hc : c ≠ '\n' := fun he => h (he ▸ List.mem_cons_self _ _)
      rw [split_on_nl, if_neg hc, ih fun hin => h (List.mem_cons_of_mem _ hin)]

theorem split_on_nl_append (a b : List Char) (h : '\n' ∉ a) :
    split_on_nl (a ++ '\n' :: b) = a :: split_on_nl b := by
  induction a with
  | nil => simp [split_on_nl]
  | cons c a2 ih =>
      have hc : c ≠ '\n' := fun he => h (he ▸ List.mem_cons_self _ _)
      rw [List.cons_append, split_on_nl, if_neg hc,
        ih fun hin => h (List.mem_cons_of_mem _ hin)]

theorem indent_acc_pos (W : List Char) :
    ∀ (ls : List (List Char)) (n : Nat), indent_acc W ls (n + 1) = indent_rest W ls := by
  intro ls
  induction ls with
  | nil => intro n; rfl
  | cons l ls2 ih =>
      intro n
      simp only [indent_acc, indent_rest, if_pos (Nat.succ_pos n), ih (n + 1)]

theorem rstrip_ws_pref (s : List Char) : rstrip_ws s <+: s :=
  List.rdropWhile_prefix isRstripChar s

theorem rstrip_ws_last (s : List Char) (x : Char) (h : (rstrip_ws s).getLast? = some x) :
    isRstripChar x = false := by
  have hne : rstrip_ws s ≠ [] := by
    intro he; rw [he] at h; cases h
  have h2 := List.getLast?_eq_getLast_of_ne_nil hne
  rw [h2] at h
  injection h with h3
  rw [← h3]
  simpa using List.rdropWhile_last_not isRstripChar s hne

theorem isPrefixOf_self_append (W r : List Char) : W.isPrefixOf (W ++ r) = true :=
  List.isPrefixOf_iff_prefix.mpr (List.prefix_append _ _)

theorem getLast?_through (a : List Char) (c : Char) (b : List Char) (hb : b ≠ []) :
    (a ++ c :: b).getLast? = b.getLast? := by
  rw [List.getLast?_append_of_ne_nil a (by simp)]
  exact List.getLast?_append_of_ne_nil [c] hb

theorem indent_to_rstrip (c : Char) (h : isIndentChar c = true) : isRstripChar c = true := by
  simp only [isIndentChar, Bool.or_eq_true, beq_iff_eq] at h
  rcases h with rfl | rfl <;> rfl

/-- Every line of a prefix `r` of `indent_rest W ls` that ends in a
non-strippable character is prefixed by `W` — including the first line of `r`,
which starts right after a newline of the surrounding accumulator. -/
theorem w_prefixed_lines (W : List Char) (hW : ∀ c ∈ W, isIndentChar c = true) :
    ∀ (ls : List (List Char)) (r : List Char),
      (∀ l ∈ ls, '\n' ∉ l) → r <+: indent_rest W ls → r ≠ [] →
      (∀ x, r.getLast? = some x → isRstripChar x = false) →
      ∀ l ∈ split_on_nl r, W.isPrefixOf l = true := by
  have hWnl : '\n' ∉ W := fun hin => by simpa [isIndentChar] using hW '\n' hin
  intro ls
  induction ls with
  | nil =>
      intro r _ hpre hne _
      exact absurd (List.prefix_nil.mp hpre) hne
  | cons l1 ls2 ih =>
      intro r hls hpre hne hlast
      have hl1nl : '\n' ∉ l1 := hls l1 (List.mem_cons_self _ _)
      have hls2 : ∀ l ∈ ls2, '\n' ∉ l := fun l hl => hls l (List.mem_cons_of_mem _ hl)
      have hpre2 : r <+: W ++ (l1 ++ '\n' :: indent_rest W ls2) := by
        have : indent_rest W (l1 :: ls2) = W ++ (l1 ++ '\n' :: indent_rest W ls2) := by
          rw [indent_rest, List.append_assoc]
        exact this ▸ hpre
      rcases pref_append_cases hpre2 with hcase | ⟨r2, rfl, hr2⟩
      · -- r is a nonempty prefix of the all-whitespace W: its last char is
        -- strippable, contradicting hlast
        exfalso
        have hx := List.getLast?_eq_getLast_of_ne_nil hne
        have hmem : r.getLast hne ∈ r := List.getLast_mem hne
        have hmemW : r.getLast hne ∈ W := hcase.subset hmem
        have := hlast _ hx
        rw [indent_to_rstrip _ (hW _ hmemW)] at this
        cases this
      · rcases pref_append_cases hr2 with hcase2 | ⟨r3, rfl, hr3⟩
        · -- r = W ++ r2 with r2 inside l1: a single line prefixed by W
          have hnl : '\n' ∉ W ++ r2 := by
            intro hin
            rcases List.mem_append.mp hin with h1 | h2
            · exact hWnl h1
            · exact hl1nl (hcase2.subset h2)
          intro l hl
          rw [split_on_nl_no_nl _ hnl] at hl
          rcases List.mem_singleton.mp hl with rfl
          exact isPrefixOf_self_append W r2
        · cases r3 with
          | nil =>
              -- r = W ++ l1: a single line prefixed by W
              have hnl : '\n' ∉ W ++ (l1 ++ []) := by
                intro hin
                rcases List.mem_append.mp hin with h1 | h2
                · exact hWnl h1
                · exact hl1nl (by simpa using h2)
              intro l hl
              rw [split_on_nl_no_nl _ hnl] at hl
              rcases List.mem_singleton.mp hl with rfl
              exact isPrefixOf_self_append W _
          | cons c r4 =>
              obtain ⟨rfl, hr4⟩ := List.cons_prefix_cons.mp hr3
              have hshape : W ++ (l1 ++ '\n' :: r4) = (W ++ l1) ++ '\n' :: r4 := by
                rw [List.append_assoc]
              have hnl : '\n' ∉ W ++ l1 := by
                intro hin
                rcases List.mem_append.mp hin with h1 | h2
                · exact hWnl h1
                · exact hl1nl h2
              have hr4ne : r4 ≠ [] := by
                rintro rfl
                have hx : (W ++ (l1 ++ ['\n'])).getLast? = some '\n' := by
                  rw [← List.append_assoc]
                  exact List.getLast?_concat _
                have := hlast _ hx
                cases this
              have hlast4 : ∀ x, r4.getLast? = some x → isRstripChar x = false := by
                intro x hx
                refine hlast x ?_
                rw [hshape, getLast?_through (W ++ l1) '\n' r4 hr4ne]
                exact hx
              intro l hl
              rw [hshape, split_on_nl_append (W ++ l1) r4 hnl] at hl
              rcases List.mem_cons.mp hl with rfl | hmem
              · exact isPrefixOf_self_append W l1
              · exact ih r4 hls2 hr4 hr4ne hlast4 l hmem

/-- At a substitution site whose marker is preceded on its line only by the
tab/space run `W` (bounded by a non-tab/space character or the start of the
text), `get_indent_for` extracts exactly `W`. -/
theorem get_indent_site (pre W rest : List Char) (hW : ∀ c ∈ W, isIndentChar c = true)
    (hpre : pre = [] ∨ ∃ p c, pre = p ++ [c] ∧ isIndentChar c = false) :
    get_indent_for (pre ++ W ++ rest) ((pre.length : Int) + (W.length : Int) - 1) = W := by
  rcases Nat.eq_zero_or_pos (pre.length + W.length) with hz | hpos
  · have hpre0 : pre = [] := List.length_eq_zero.mp (by omega)
    have hW0 : W = [] := List.length_eq_zero.mp (by omega)
    subst hpre0; subst hW0
    simp only [get_indent_for, List.nil_append, List.length_nil]
    split_ifs with h1 h2 h3
    · exact absurd h1 (by omega)
    · exact absurd h1 (by omega)
    · rfl
    · exact absurd h3 (by omega)
  · simp only [get_indent_for, List.length_append]
    split_ifs with h1 h2 h3
    · exact absurd h1 (by omega)
    · exact absurd h1 (by omega)
    · exact absurd h3 (by omega)
    · have hton : (((pre.length : Int) + (W.length : Int) - 1).toNat + 1) =
          (pre ++ W).length := by
        simp only [List.length_append]
        omega
      rw [hton, List.take_left]
      rw [List.reverse_append]
      rw [takeWhile_append_all W.reverse pre.reverse
        (fun x hx => hW x (List.mem_reverse.mp hx))]
      rcases hpre with rfl | ⟨p, c, rfl, hc⟩
      · simp
      · rw [show (p ++ [c]).reverse = c :: p.reverse by simp,
          List.takeWhile_cons_of_neg (by simp [hc])]
        simp

/-- Every line after the first of `apply_indent_to text W` carries the prefix
`W` (for a tab/space indent `W`): the continuation lines of the spliced value
are indented by exactly the site's whitespace run, and the right-strip at the
end never leaves a half-stripped prefix. -/
theorem apply_indent_lines (text W : List Char) (hW : ∀ c ∈ W, isIndentChar c = true) :
    ∀ l ∈ (split_on_nl (apply_indent_to text W)).tail, W.isPrefixOf l = true := by
  intro l hl
  obtain ⟨l0, ls, hsplit⟩ : ∃ l0 ls, split_on_nl text = l0 :: ls := by
    cases h : split_on_nl text with
    | nil => exact absurd h (split_on_nl_ne_nil text)
    | cons a b => exact ⟨a, b, rfl⟩
  have hl0nl : '\n' ∉ l0 := mem_split_on_nl_no_nl text l0 (hsplit ▸ List.mem_cons_self _ _)
  have hlsnl : ∀ m ∈ ls, '\n' ∉ m := fun m hm =>
    mem_split_on_nl_no_nl text m (hsplit ▸ List.mem_cons_of_mem _ hm)
  have hWnl : '\n' ∉ W := fun hin => by simpa [isIndentChar] using hW '\n' hin
  have hacc : indent_acc W (l0 :: ls) 0 = l0 ++ '\n' :: indent_rest W ls := by
    simp only [indent_acc, indent_acc_pos]
    simp
  have hr : apply_indent_to text W =
      rstrip_ws ((l0 ++ '\n' :: indent_rest W ls).take
        ((l0 ++ '\n' :: indent_rest W ls).length - 1)) := by
    rw [apply_indent_to, hsplit, hacc]
  have hA : apply_indent_to text W <+: l0 ++ '\n' :: indent_rest W ls := by
    rw [hr]
    exact (rstrip_ws_pref _).trans (List.take_prefix _ _)
  have hlast : ∀ x, (apply_indent_to text W).getLast? = some x → isRstripChar x = false := by
    intro x hx
    rw [hr] at hx
    exact rstrip_ws_last _ x hx
  rcases eq_or_ne (apply_indent_to text W) [] with hnil | hne
  · rw [hnil] at hl
    simp [split_on_nl] at hl
  · rcases pref_append_cases hA with hcase | ⟨r2, hr2eq, hr2⟩
    · exfalso
      have hnl : '\n' ∉ apply_indent_to text W := fun hin => hl0nl (hcase.subset hin)
      rw [split_on_nl_no_nl _ hnl] at hl
      simp at hl
    · cases r2 with
      | nil =>
          exfalso
          rw [List.append_nil] at hr2eq
          have hnl : '\n' ∉ apply_indent_to text W := hr2eq ▸ hl0nl
          rw [split_on_nl_no_nl _ hnl] at hl
          simp at hl
      | cons c r3 =>
          obtain ⟨rfl, hr3⟩ := List.cons_prefix_cons.mp hr2
          have hr3ne : r3 ≠ [] := by
            rintro rfl
            have hx : (apply_indent_to text W).getLast? = some '\n' := by
              rw [hr2eq]
              exact List.getLast?_concat _
            have := hlast _ hx
            cases this
          have hlast3 : ∀ x, r3.getLast? = some x → isRstripChar x = false := by
            intro x hx
            refine hlast x ?_
            rw [hr2eq, getLast?_through l0 '\n' r3 hr3ne]
            exact hx
          rw [hr2eq, split_on_nl_append l0 r3 hl0nl] at hl
          exact w_prefixed_lines W hW ls r3 hlsnl hr3 hr3ne hlast3 l hl

/-- Claim C4: (i) at a substitution site whose marker is preceded on its line
only by a tab/space run `W` (bounded by a non-tab/space character or the start
of the text), `get_indent_for` yields exactly `W`; (ii) the spliced replacement
`apply_indent_to v W` has every line after its first prefixed by `W`; (iii)
trailing tab/space/CR/newline characters are stripped from the very end before
splicing — in particular `"line1\nline2\n\n"` becomes `"line1\nline2"` — and a
concrete two-line value shows the exact per-line prefixing. -/
theorem C4_indentation :
    (∀ pre W rest : List Char, (∀ c ∈ W, isIndentChar c = true) →
      (pre = [] ∨ ∃ p c, pre = p ++ [c] ∧ isIndentChar c = false) →
      get_indent_for (pre ++ W ++ rest) ((pre.length : Int) + (W.length : Int) - 1) = W) ∧
    (∀ text W : List Char, (∀ c ∈ W, isIndentChar c = true) →
      ∀ l ∈ (split_on_nl (apply_indent_to text W)).tail, W.isPrefixOf l = true) ∧
    apply_indent_to "line1\nline2\n\n".toList [] = "line1\nline2".toList ∧
    apply_indent_to "a\nb".toList ['\t'] = "a\n\tb".toList :=
  ⟨get_indent_site, apply_indent_lines, by rfl, by rfl⟩

theorem C4_indentation_witness :
    get_indent_for (['\n'] ++ ['\t'] ++ "ab".toList)
      (((['\n'] : List Char).length : Int) + ((['\t'] : List Char).length : Int) - 1) =
      ['\t'] ∧
    List.isPrefixOf ['\t'] "\tb".toList = true :=
  ⟨C4_indentation.1 ['\n'] ['\t'] "ab".toList (by decide)
      (Or.inr ⟨[], '\n', rfl, by decide⟩),
   C4_indentation.2.1 "a\nb".toList ['\t'] (by decide) "\tb".toList (by decide)⟩

end TmplLdr
